import Mathlib

/-!
Verification of the user-management service: a flat-file Flask variant
(`api_1.py`) and a database-backed FastAPI variant (`userator/api_1.py`),
modelled as pure Lean functions over explicit store states.
-/

namespace UserApi

/-! ### Flat-file variant: characters, stripping, splitting, int parsing -/

/-- Whitespace characters removed by Python `str.strip()` (ASCII subset;
non-ASCII whitespace is not modelled). -/
def isPyWs (c : Char) : Bool :=
  c = ' ' || c = '\t' || c = '\n' || c = '\r' || c = '\x0b' || c = '\x0c'

/-- Python `str.strip()` on a list of characters: drop whitespace from both
ends. -/
def pyStrip (s : List Char) : List Char :=
  ((s.dropWhile isPyWs).reverse.dropWhile isPyWs).reverse

/-- Split a character list at every occurrence of `sep`; models Python
`str.split(sep)` for a one-character separator, and the division of a
file's contents into lines when `sep` is a newline. -/
def splitOnChar (sep : Char) : List Char → List (List Char)
  | [] => [[]]
  | c :: cs =>
    match splitOnChar sep cs with
    | [] => [[c]]
    | l :: ls => if c = sep then [] :: l :: ls else (c :: l) :: ls

/-- The decimal digit character for `n < 10`. -/
def digitChar (n : Nat) : Char := Char.ofNat (48 + n)

/-- ASCII decimal digit test (`'0'` to `'9'`), as accepted by Python
`int(...)` (non-ASCII digits and underscore grouping are not modelled). -/
def isDigitCh (c : Char) : Bool := 48 ≤ c.toNat && c.toNat ≤ 57

/-- Fuel-driven decimal printing helper: most significant digit first. -/
def natDigitsAux : Nat → Nat → List Char
  | 0, _ => []
  | fuel + 1, n =>
    if n < 10 then [digitChar n]
    else natDigitsAux fuel (n / 10) ++ [digitChar (n % 10)]

/-- Decimal representation of a natural number, as produced by Python
`str` on a non-negative int. -/
def natToDigits (n : Nat) : List Char := natDigitsAux (n + 1) n

/-- Decimal representation of a Python int (`str(self.id)`). -/
def intRepr (i : Int) : List Char :=
  if i < 0 then '-' :: natToDigits i.natAbs else natToDigits i.toNat

/-- Numeric value of a list of decimal digit characters. -/
def digitsVal (ds : List Char) : Nat :=
  ds.foldl (fun a c => a * 10 + (c.toNat - 48)) 0

/-- Parse a nonempty list of decimal digits; `none` otherwise. -/
def digitsToNat (ds : List Char) : Option Nat :=
  if !ds.isEmpty && ds.all isDigitCh then some (digitsVal ds) else none

/-- Python `int(s)`: surrounding whitespace is stripped, then an optional
sign followed by at least one decimal digit. -/
def pyInt (s : List Char) : Option Int :=
  match pyStrip s with
  | [] => none
  | c :: ds =>
    if c = '-' then (digitsToNat ds).map (fun n => -(Int.ofNat n))
    else if c = '+' then (digitsToNat ds).map Int.ofNat
    else (digitsToNat (c :: ds)).map Int.ofNat

/-! ### Flat-file variant: users, file format, handlers -/

/-- A user record of the flat-file variant (`class User`). -/
structure FlatUser where
  id : Int
  name : List Char
  email : List Char
deriving DecidableEq

/-- `User.__str__`: the line `f"{self.id},{self.name},{self.email}"`. -/
def userLine (u : FlatUser) : List Char :=
  intRepr u.id ++ [','] ++ u.name ++ [','] ++ u.email

/-- The file contents written by `save_users_to_file`: for each user in
order, `str(user)` followed by a newline. -/
def saveUsersContent (users : List FlatUser) : List Char :=
  (users.map (fun u => userLine u ++ ['\n'])).flatten

/-- One iteration of the `load_users_from_file` loop: the line is stripped;
an empty result is skipped; otherwise the line is split on `','` and a user
is appended only when there are exactly three parts and the first parses as
an int. -/
def loadLine (line : List Char) : Option FlatUser :=
  if (pyStrip line).isEmpty then none
  else
    match splitOnChar ',' (pyStrip line) with
    | [p0, p1, p2] =>
      match pyInt p0 with
      | some i => some ⟨i, p1, p2⟩
      | none => none
    | _ => none

/-- `load_users_from_file` on given file contents: the file is read line by
line and each well-formed line appends one user, in file order. -/
def loadUsers (content : List Char) : List FlatUser :=
  (splitOnChar '\n' content).filterMap loadLine

/-- Field conditions under which a user's saved line parses back unchanged:
no comma and no newline in the name or the email, and an email that does
not end in a whitespace character (trailing whitespace would be removed by
`strip()` on load). -/
def cleanUser (u : FlatUser) : Prop :=
  (∀ c ∈ u.name, c ≠ ',' ∧ c ≠ '\n') ∧
  (∀ c ∈ u.email, c ≠ ',' ∧ c ≠ '\n') ∧
  (∀ c, u.email.getLast? = some c → isPyWs c = false)

/-- A file line is well formed when, after stripping, it is nonempty,
splits on `','` into exactly three parts, and its first part parses as an
int. -/
def wellFormedLine (line : List Char) : Bool :=
  !(pyStrip line).isEmpty &&
    (match splitOnChar ',' (pyStrip line) with
     | [p0, _, _] => (pyInt p0).isSome
     | _ => false)

/-- The user a well-formed line denotes: int of the first part, then name
and email. -/
def lineUser (line : List Char) : FlatUser :=
  match splitOnChar ',' (pyStrip line) with
  | [p0, p1, p2] => ⟨(pyInt p0).getD 0, p1, p2⟩
  | _ => ⟨0, [], []⟩

/-- Outcome of the flat-file `handle_add_user` route: HTTP status, the
created user if any, the resulting in-memory list, and whether the handler
wrote the users file. -/
structure FlatOutcome where
  status : Nat
  created : Option FlatUser
  users : List FlatUser
  savedFile : Bool
deriving DecidableEq

/-- Python falsiness of an optional query parameter (`not name`): absent or
the empty string. -/
def isBlank (o : Option (List Char)) : Bool :=
  match o with
  | none => true
  | some s => s.isEmpty

/-- `handle_add_user`: reads `name` and `email` from the query string,
answers 400 when either is missing or empty, and otherwise appends a user
with id `len(users) + 1` and saves the file. -/
def handleAddUser (users : List FlatUser) (name email : Option (List Char)) :
    FlatOutcome :=
  if isBlank name || isBlank email then
    ⟨400, none, users, false⟩
  else
    let u : FlatUser := ⟨(users.length : Int) + 1, name.getD [], email.getD []⟩
    ⟨200, some u, users ++ [u], true⟩

/-! ### Database-backed variant (`userator/api_1.py`) -/

/-- The error taxonomy surfaced through `HTTPException`. -/
inductive ErrKind where
  | duplicateEmail
  | invalidInput
  | notFound
  | storageError
deriving DecidableEq

/-- An `HTTPException`: status code and error kind. -/
structure ApiError where
  status : Nat
  kind : ErrKind
deriving DecidableEq

/-- A row of the sqlite `users` table / a `UserResponse`. -/
structure DBUser where
  id : Nat
  name : String
  email : String
  age : Nat
deriving DecidableEq

/-- State of the sqlite `users` table: the stored rows together with the
`AUTOINCREMENT` sequence value (`sqlite_sequence`).  A table freshly made
by `create_db_and_tables` has no rows and `seq = 0`; a database loaded
from a pre-existing file may carry any rows and any sequence value. -/
structure DBState where
  rows : List DBUser
  seq : Nat
deriving DecidableEq

/-- The largest id present among the rows (0 when there are none). -/
def maxId (rows : List DBUser) : Nat :=
  rows.foldr (fun u m => max u.id m) 0

/-- A validated `UserCreate` payload (name, email, non-negative age). -/
structure UserCreate where
  name : String
  email : String
  age : Nat
deriving DecidableEq

/-- `add_user`: `INSERT INTO users (name, email, age) VALUES (?, ?, ?)`.
With `id INTEGER PRIMARY KEY AUTOINCREMENT` the new row receives id
`max(sequence, largest existing id) + 1` and the sequence is advanced; an
email already present violates the `UNIQUE` constraint, the transaction is
rolled back and a 409 duplicate-email error is raised. -/
def addUser (s : DBState) (u : UserCreate) : Except ApiError DBUser × DBState :=
  if s.rows.any (fun r => r.email == u.email) then
    (Except.error ⟨409, ErrKind.duplicateEmail⟩, s)
  else
    let nid := max s.seq (maxId s.rows) + 1
    let row : DBUser := ⟨nid, u.name, u.email, u.age⟩
    (Except.ok row, ⟨s.rows ++ [row], nid⟩)

/-- The row order used by `ORDER BY id`. -/
def idLe (a b : DBUser) : Prop := a.id ≤ b.id

instance : DecidableRel idLe := fun a b => Nat.decLe a.id b.id

instance : IsTotal DBUser idLe := ⟨fun a b => Nat.le_total a.id b.id⟩

instance : IsTrans DBUser idLe := ⟨fun _ _ _ => Nat.le_trans⟩

/-- `SELECT id, name, email, age FROM users ORDER BY id LIMIT ? OFFSET ?`:
the rows sorted by ascending id, with `skip` of them dropped and at most
`lim` returned. -/
def listUsers (s : DBState) (skip lim : Nat) : List DBUser :=
  ((s.rows.insertionSort idLe).drop skip).take lim

/-- `get_user_by_id` (`GET /users/{user_id_path}`): the row with the given
id, or a 404 not-found error when no row has it. -/
def getById (s : DBState) (uid : Nat) : Except ApiError DBUser :=
  match s.rows.find? (fun r => r.id == uid) with
  | some r => Except.ok r
  | none => Except.error ⟨404, ErrKind.notFound⟩

/-- `get_users` (`GET /users/`): when `user_id` is supplied, the single
matching row as a one-element list (404 when absent), the pagination
parameters unused; otherwise a page of rows ordered by id. -/
def getOrList (s : DBState) (uid : Option Nat) (skip lim : Nat) :
    Except ApiError (List DBUser) :=
  match uid with
  | some i =>
    match s.rows.find? (fun r => r.id == i) with
    | some r => Except.ok [r]
    | none => Except.error ⟨404, ErrKind.notFound⟩
  | none => Except.ok (listUsers s skip lim)

/-- A raw create request body before validation: every field may be
absent. -/
structure RawCreate where
  name : Option String
  email : Option String
  age : Option Int

/-- Modelled from the spec: the `EmailStr` syntax check is performed by the
external email-validator collaborator whose code is not in the repository;
the spec asks only for "text matching a valid email syntax".  This
executable stand-in accepts strings made of exactly one `'@'` between two
nonempty parts. -/
def validEmail (e : String) : Bool :=
  match splitOnChar '@' e.toList with
  | [l, d] => !l.isEmpty && !d.isEmpty
  | _ => false

/-- Pydantic validation of the request body into `UserCreate`: `name` and
`email` are required, `email` must be well formed, `age` is optional with
default 0 and must be ≥ 0 (`Field(default=0, ge=0)`); any violation is
answered with 422 before the handler body runs. -/
def validateCreate (r : RawCreate) : Except ApiError UserCreate :=
  match r.name, r.email with
  | some n, some e =>
    if validEmail e then
      match r.age with
      | some a =>
        if a < 0 then Except.error ⟨422, ErrKind.invalidInput⟩
        else Except.ok ⟨n, e, a.toNat⟩
      | none => Except.ok ⟨n, e, 0⟩
    else Except.error ⟨422, ErrKind.invalidInput⟩
  | _, _ => Except.error ⟨422, ErrKind.invalidInput⟩

/-- `POST /users/`: the body is validated into `UserCreate` (a 422 leaves
the store untouched and never reaches storage), then `add_user` runs. -/
def postUsers (s : DBState) (r : RawCreate) : Except ApiError DBUser × DBState :=
  match validateCreate r with
  | Except.error e => (Except.error e, s)
  | Except.ok u => addUser s u

/-- A server state: the database plus the number of currently open
storage connections. -/
structure ServerState where
  db : DBState
  openConns : Nat
deriving DecidableEq

/-- `get_db_connection`: a connection is opened for the request, the
handler body runs with it (it may answer or raise, a raised
`HTTPException` being the `Except.error` case of the result), and the
`finally` block closes the connection on every exit path. -/
def withConnection {A : Type} (st : ServerState)
    (body : DBState → Except ApiError A × DBState) :
    Except ApiError A × ServerState :=
  let opened : Nat := st.openConns + 1
  let r := body st.db
  (r.1, ⟨r.2, opened - 1⟩)

/-! ### Helper lemmas: characters, stripping, splitting -/

theorem mem_of_head_some {α : Type} {l : List α} {a : α}
    (h : l.head? = some a) : a ∈ l := by
  cases l with
  | nil => cases h
  | cons x t =>
    simp only [List.head?_cons, Option.some.injEq] at h
    exact h ▸ List.mem_cons_self x t

theorem mem_of_getLast_some {α : Type} {l : List α} {a : α}
    (h : l.getLast? = some a) : a ∈ l := by
  rw [← List.head?_reverse] at h
  exact (List.mem_reverse).1 (mem_of_head_some h)

theorem dropWhile_eq_self_of_head {α : Type} (p : α → Bool) (l : List α)
    (h : ∀ c, l.head? = some c → p c = false) : l.dropWhile p = l := by
  cases l with
  | nil => rfl
  | cons a t => simp [List.dropWhile_cons, h a rfl]

theorem pyStrip_eq_self (s : List Char)
    (h1 : ∀ c, s.head? = some c → isPyWs c = false)
    (h2 : ∀ c, s.getLast? = some c → isPyWs c = false) : pyStrip s = s := by
  unfold pyStrip
  rw [dropWhile_eq_self_of_head _ _ h1,
    dropWhile_eq_self_of_head _ _
      (fun c hc => h2 c (by rwa [List.head?_reverse] at hc)),
    List.reverse_reverse]

theorem splitOnChar_ne_nil (sep : Char) (l : List Char) :
    splitOnChar sep l ≠ [] := by
  cases l with
  | nil => simp [splitOnChar]
  | cons a t =>
    simp only [splitOnChar]
    cases splitOnChar sep t with
    | nil => simp
    | cons x xs => by_cases h : a = sep <;> simp [h]

theorem splitOnChar_no_sep (sep : Char) (l : List Char)
    (h : ∀ c ∈ l, c ≠ sep) : splitOnChar sep l = [l] := by
  induction l with
  | nil => rfl
  | cons a t ih =>
    have ht : ∀ c ∈ t, c ≠ sep := fun c hc => h c (List.mem_cons_of_mem a hc)
    simp [splitOnChar, ih ht, h a (List.mem_cons_self a t)]

theorem splitOnChar_append (sep : Char) (a b : List Char)
    (h : ∀ c ∈ a, c ≠ sep) :
    splitOnChar sep (a ++ sep :: b) = a :: splitOnChar sep b := by
  induction a with
  | nil =>
    simp only [List.nil_append]
    cases hb : splitOnChar sep b with
    | nil => exact absurd hb (splitOnChar_ne_nil sep b)
    | cons l ls => simp [splitOnChar, hb]
  | cons x t ih =>
    have ht : ∀ c ∈ t, c ≠ sep := fun c hc => h c (List.mem_cons_of_mem x hc)
    have hx : x ≠ sep := h x (List.mem_cons_self x t)
    simp only [List.cons_append, splitOnChar, List.append_eq]
    rw [ih ht]
    simp [hx]

/-! ### Helper lemmas: digits and int printing/parsing -/

theorem digitChar_facts (n : Nat) (h : n < 10) :
    isDigitCh (digitChar n) = true ∧ (digitChar n).toNat - 48 = n := by
  interval_cases n <;> exact ⟨by decide, by decide⟩

theorem isDigitCh_toNat {c : Char} (h : isDigitCh c = true) :
    48 ≤ c.toNat ∧ c.toNat ≤ 57 := by
  simpa [isDigitCh, Bool.and_eq_true, decide_eq_true_eq] using h

theorem digit_ne_of_not_digit {c x : Char} (h : isDigitCh c = true)
    (hx : isDigitCh x = false) : c ≠ x := by
  rintro rfl
  rw [h] at hx
  cases hx

theorem not_pyWs_of_digit {c : Char} (h : isDigitCh c = true) :
    isPyWs c = false := by
  obtain ⟨h1, _⟩ := isDigitCh_toNat h
  simp only [isPyWs, Bool.or_eq_false_iff, decide_eq_false_iff_not]
  refine ⟨⟨⟨⟨⟨?_, ?_⟩, ?_⟩, ?_⟩, ?_⟩, ?_⟩ <;> (rintro rfl; simp_all)

theorem digitsVal_concat (ds : List Char) (c : Char) :
    digitsVal (ds ++ [c]) = digitsVal ds * 10 + (c.toNat - 48) := by
  simp [digitsVal, List.foldl_append]

theorem natDigitsAux_spec (fuel : Nat) :
    ∀ n, n < fuel →
      natDigitsAux fuel n ≠ [] ∧
      (∀ c ∈ natDigitsAux fuel n, isDigitCh c = true) ∧
      digitsVal (natDigitsAux fuel n) = n := by
  induction fuel with
  | zero => intro n h; exact absurd h (Nat.not_lt_zero n)
  | succ f ih =>
    intro n h
    by_cases h10 : n < 10
    · obtain ⟨hd, hv⟩ := digitChar_facts n h10
      refine ⟨by simp [natDigitsAux, h10], ?_, ?_⟩
      · intro c hc
        simp only [natDigitsAux, if_pos h10, List.mem_singleton] at hc
        exact hc ▸ hd
      · simp [natDigitsAux, h10, digitsVal, hv]
    · have hlt : n / 10 < f := by omega
      obtain ⟨hne, hdig, hval⟩ := ih (n / 10) hlt
      obtain ⟨hd, hv⟩ := digitChar_facts (n % 10) (Nat.mod_lt n (by omega))
      refine ⟨by simp [natDigitsAux, h10], ?_, ?_⟩
      · intro c hc
        simp only [natDigitsAux, if_neg h10, List.mem_append,
          List.mem_singleton] at hc
        rcases hc with hc | hc
        · exact hdig c hc
        · exact hc ▸ hd
      · simp only [natDigitsAux, if_neg h10, digitsVal_concat, hval, hv]
        omega

theorem natToDigits_spec (n : Nat) :
    natToDigits n ≠ [] ∧
    (∀ c ∈ natToDigits n, isDigitCh c = true) ∧
    digitsVal (natToDigits n) = n :=
  natDigitsAux_spec (n + 1) n (Nat.lt_succ_self n)

theorem digitsToNat_natToDigits (n : Nat) :
    digitsToNat (natToDigits n) = some n := by
  obtain ⟨hne, hdig, hval⟩ := natToDigits_spec n
  have h1 : (natToDigits n).isEmpty = false := List.isEmpty_eq_false.2 hne
  have h2 : (natToDigits n).all isDigitCh = true := List.all_eq_true.2 hdig
  simp [digitsToNat, h1, h2, hval]

theorem pyStrip_of_digits (ds : List Char)
    (hdig : ∀ c ∈ ds, isDigitCh c = true) : pyStrip ds = ds :=
  pyStrip_eq_self ds
    (fun c hc => not_pyWs_of_digit (hdig c (mem_of_head_some hc)))
    (fun c hc => not_pyWs_of_digit (hdig c (mem_of_getLast_some hc)))

theorem pyInt_intRepr (i : Int) : pyInt (intRepr i) = some i := by
  by_cases hneg : i < 0
  · obtain ⟨hne, hdig, _⟩ := natToDigits_spec i.natAbs
    have hstrip : pyStrip ('-' :: natToDigits i.natAbs)
        = '-' :: natToDigits i.natAbs := by
      refine pyStrip_eq_self _ (fun c hc => ?_) (fun c hc => ?_)
      · simp only [List.head?_cons, Option.some.injEq] at hc
        subst hc; decide
      · rcases List.mem_cons.1 (mem_of_getLast_some hc) with h | h
        · subst h; decide
        · exact not_pyWs_of_digit (hdig c h)
    rw [intRepr, if_pos hneg, pyInt, hstrip]
    show (if ('-' : Char) = '-' then
        (digitsToNat (natToDigits i.natAbs)).map (fun n => -(Int.ofNat n))
      else if ('-' : Char) = '+' then
        (digitsToNat (natToDigits i.natAbs)).map Int.ofNat
      else (digitsToNat ('-' :: natToDigits i.natAbs)).map Int.ofNat) = some i
    rw [if_pos rfl, digitsToNat_natToDigits]
    show some (-(Int.ofNat i.natAbs)) = some i
    congr 1
    simp only [Int.ofNat_eq_coe]
    omega
  · obtain ⟨hne, hdig, _⟩ := natToDigits_spec i.toNat
    have hstrip := pyStrip_of_digits (natToDigits i.toNat) hdig
    cases hd : natToDigits i.toNat with
    | nil => exact absurd hd hne
    | cons c cs =>
      rw [hd] at hstrip hdig
      have hc : isDigitCh c = true := hdig c (List.mem_cons_self c cs)
      rw [intRepr, if_neg hneg, pyInt, hd, hstrip]
      show (if c = '-' then (digitsToNat cs).map (fun n => -(Int.ofNat n))
        else if c = '+' then (digitsToNat cs).map Int.ofNat
        else (digitsToNat (c :: cs)).map Int.ofNat) = some i
      rw [if_neg (digit_ne_of_not_digit hc (by decide)),
        if_neg (digit_ne_of_not_digit hc (by decide)), ← hd,
        digitsToNat_natToDigits]
      show some (Int.ofNat i.toNat) = some i
      congr 1
      simp only [Int.ofNat_eq_coe]
      omega

theorem digit_not_comma_newline {c : Char} (h : isDigitCh c = true) :
    c ≠ ',' ∧ c ≠ '\n' :=
  ⟨digit_ne_of_not_digit h (by decide), digit_ne_of_not_digit h (by decide)⟩

theorem intRepr_ne_nil (i : Int) : intRepr i ≠ [] := by
  unfold intRepr
  by_cases hneg : i < 0
  · simp [hneg]
  · rw [if_neg hneg]
    exact (natToDigits_spec i.toNat).1

theorem intRepr_chars {i : Int} {c : Char} (hc : c ∈ intRepr i) :
    c ≠ ',' ∧ c ≠ '\n' := by
  unfold intRepr at hc
  by_cases hneg : i < 0
  · rw [if_pos hneg] at hc
    rcases List.mem_cons.1 hc with h | h
    · subst h; exact ⟨by decide, by decide⟩
    · exact digit_not_comma_newline ((natToDigits_spec i.natAbs).2.1 c h)
  · rw [if_neg hneg] at hc
    exact digit_not_comma_newline ((natToDigits_spec i.toNat).2.1 c hc)

theorem intRepr_head_not_ws {i : Int} {c : Char}
    (hc : (intRepr i).head? = some c) : isPyWs c = false := by
  unfold intRepr at hc
  by_cases hneg : i < 0
  · rw [if_pos hneg] at hc
    simp only [List.head?_cons, Option.some.injEq] at hc
    subst hc; decide
  · rw [if_neg hneg] at hc
    exact not_pyWs_of_digit
      ((natToDigits_spec i.toNat).2.1 c (mem_of_head_some hc))

theorem userLine_eq_append (u : FlatUser) :
    userLine u = intRepr u.id ++ (',' :: (u.name ++ (',' :: u.email))) := by
  simp [userLine, List.append_assoc]

theorem userLine_ne_nil (u : FlatUser) : userLine u ≠ [] := by
  rw [userLine_eq_append]
  intro h
  exact intRepr_ne_nil u.id (List.append_eq_nil.1 h).1

theorem userLine_head_not_ws (u : FlatUser) :
    ∀ c, (userLine u).head? = some c → isPyWs c = false := by
  intro c hc
  rw [userLine_eq_append, List.head?_append] at hc
  cases hd : (intRepr u.id).head? with
  | none => exact absurd (List.head?_eq_none_iff.1 hd) (intRepr_ne_nil u.id)
  | some d =>
    rw [hd] at hc
    simp only [Option.or, Option.some.injEq] at hc
    subst hc
    exact intRepr_head_not_ws hd

theorem userLine_getLast_not_ws (u : FlatUser)
    (hws : ∀ c, u.email.getLast? = some c → isPyWs c = false) :
    ∀ c, (userLine u).getLast? = some c → isPyWs c = false := by
  intro c hc
  rw [userLine, List.getLast?_append, List.getLast?_concat] at hc
  cases he : u.email.getLast? with
  | none =>
    rw [he] at hc
    simp only [Option.or, Option.some.injEq] at hc
    subst hc; decide
  | some d =>
    rw [he] at hc
    simp only [Option.or, Option.some.injEq] at hc
    subst hc
    exact hws _ he

theorem pyStrip_userLine (u : FlatUser)
    (hws : ∀ c, u.email.getLast? = some c → isPyWs c = false) :
    pyStrip (userLine u) = userLine u :=
  pyStrip_eq_self _ (userLine_head_not_ws u) (userLine_getLast_not_ws u hws)

theorem splitOnChar_userLine (u : FlatUser)
    (hn : ∀ c ∈ u.name, c ≠ ',') (he : ∀ c ∈ u.email, c ≠ ',') :
    splitOnChar ',' (userLine u) = [intRepr u.id, u.name, u.email] := by
  rw [userLine_eq_append,
    splitOnChar_append ',' _ _ (fun c hc => (intRepr_chars hc).1),
    splitOnChar_append ',' _ _ hn,
    splitOnChar_no_sep ',' _ he]

theorem loadLine_userLine (u : FlatUser)
    (hn : ∀ c ∈ u.name, c ≠ ',') (he : ∀ c ∈ u.email, c ≠ ',')
    (hws : ∀ c, u.email.getLast? = some c → isPyWs c = false) :
    loadLine (userLine u) = some u := by
  unfold loadLine
  rw [pyStrip_userLine u hws,
    List.isEmpty_eq_false.2 (userLine_ne_nil u), if_neg (by simp),
    splitOnChar_userLine u hn he]
  show (match pyInt (intRepr u.id) with
    | some i => some (⟨i, u.name, u.email⟩ : FlatUser)
    | none => none) = some u
  rw [pyInt_intRepr]

theorem userLine_no_newline (u : FlatUser)
    (hn : ∀ c ∈ u.name, c ≠ '\n') (he : ∀ c ∈ u.email, c ≠ '\n') :
    ∀ c ∈ userLine u, c ≠ '\n' := by
  intro c hc
  rw [userLine_eq_append] at hc
  rcases List.mem_append.1 hc with h | h
  · exact (intRepr_chars h).2
  · rcases List.mem_cons.1 h with h | h
    · subst h; decide
    · rcases List.mem_append.1 h with h | h
      · exact hn c h
      · rcases List.mem_cons.1 h with h | h
        · subst h; decide
        · exact he c h

theorem split_saveUsers (us : List FlatUser)
    (h : ∀ u ∈ us, ∀ c ∈ userLine u, c ≠ '\n') :
    splitOnChar '\n' (saveUsersContent us) = us.map userLine ++ [[]] := by
  induction us with
  | nil => rfl
  | cons u t ih =>
    have hc : saveUsersContent (u :: t)
        = userLine u ++ '\n' :: saveUsersContent t := by
      simp [saveUsersContent, List.append_assoc]
    rw [hc, splitOnChar_append '\n' _ _ (h u (List.mem_cons_self u t)),
      ih (fun v hv => h v (List.mem_cons_of_mem u hv))]
    simp

theorem loadLine_nil : loadLine [] = none := rfl

theorem filterMap_loadLine_map (us : List FlatUser)
    (h : ∀ u ∈ us, loadLine (userLine u) = some u) :
    (us.map userLine).filterMap loadLine = us := by
  induction us with
  | nil => rfl
  | cons u t ih =>
    simp only [List.map_cons, List.filterMap_cons,
      h u (List.mem_cons_self u t),
      ih (fun v hv => h v (List.mem_cons_of_mem u hv))]

theorem load_save_clean (us : List FlatUser)
    (h : ∀ u ∈ us, cleanUser u) :
    loadUsers (saveUsersContent us) = us := by
  have hnl : ∀ u ∈ us, ∀ c ∈ userLine u, c ≠ '\n' := fun u hu =>
    userLine_no_newline u (fun c hc => ((h u hu).1 c hc).2)
      (fun c hc => ((h u hu).2.1 c hc).2)
  rw [loadUsers, split_saveUsers us hnl, List.filterMap_append,
    filterMap_loadLine_map us (fun u hu =>
      loadLine_userLine u (fun c hc => ((h u hu).1 c hc).1)
        (fun c hc => ((h u hu).2.1 c hc).1) (h u hu).2.2)]
  simp [loadLine_nil]

/-! ### Helper lemmas: database operations -/

theorem le_maxId_of_mem {rows : List DBUser} {r : DBUser} (h : r ∈ rows) :
    r.id ≤ maxId rows := by
  induction rows with
  | nil => cases h
  | cons x t ih =>
    rcases List.mem_cons.1 h with h | h
    · subst h; exact Nat.le_max_left _ _
    · exact Nat.le_trans (ih h) (Nat.le_max_right _ _)

theorem email_present_any {rows : List DBUser} {e : String}
    (h : ∃ r ∈ rows, r.email = e) :
    rows.any (fun r => r.email == e) = true := by
  rcases h with ⟨r, hr, he⟩
  exact List.any_eq_true.2 ⟨r, hr, beq_iff_eq.2 he⟩

theorem email_fresh_any {rows : List DBUser} {e : String}
    (h : ∀ r ∈ rows, r.email ≠ e) :
    rows.any (fun r => r.email == e) = false := by
  refine List.any_eq_false.2 (fun r hr => ?_)
  simp only [beq_iff_eq]
  exact h r hr

theorem addUser_of_present {s : DBState} {u : UserCreate}
    (h : ∃ r ∈ s.rows, r.email = u.email) :
    addUser s u = (Except.error ⟨409, ErrKind.duplicateEmail⟩, s) := by
  unfold addUser
  rw [email_present_any h]
  rfl

theorem addUser_ok_elim {s : DBState} {u : UserCreate} {row : DBUser}
    {s1 : DBState} (h : addUser s u = (Except.ok row, s1)) :
    row = ⟨max s.seq (maxId s.rows) + 1, u.name, u.email, u.age⟩ ∧
    s1 = ⟨s.rows ++ [row], max s.seq (maxId s.rows) + 1⟩ := by
  unfold addUser at h
  by_cases hd : s.rows.any (fun r => r.email == u.email) = true
  · rw [if_pos hd] at h
    simp at h
  · rw [if_neg hd] at h
    simp only [Prod.mk.injEq, Except.ok.injEq] at h
    obtain ⟨h1, h2⟩ := h
    subst h1
    exact ⟨rfl, h2.symm⟩

theorem handleAddUser_created {users : List FlatUser}
    {name email : Option (List Char)} {u : FlatUser}
    (h : (handleAddUser users name email).created = some u) :
    (isBlank name || isBlank email) = false ∧
    u = ⟨(users.length : Int) + 1, name.getD [], email.getD []⟩ ∧
    handleAddUser users name email = ⟨200, some u, users ++ [u], true⟩ := by
  unfold handleAddUser at h ⊢
  by_cases hb : (isBlank name || isBlank email) = true
  · rw [if_pos hb] at h
    cases h
  · rw [if_neg hb] at h ⊢
    simp only [Option.some.injEq] at h
    subst h
    exact ⟨Bool.not_eq_true _ ▸ Bool.of_not_eq_true hb, rfl, rfl⟩

/-! ### Claims -/

/-- C1: for every store state, when two create operations carry the same
email, the second fails with a 409 duplicate-email error and leaves the
store unchanged; more generally a create whose email is already present
fails that way, and a create whose email is not present never fails with
the duplicate-email kind. -/
theorem addUser_duplicate_email (s : DBState) (u : UserCreate) :
    (∀ row s1, addUser s u = (Except.ok row, s1) →
      ∀ v : UserCreate, v.email = u.email →
        addUser s1 v = (Except.error ⟨409, ErrKind.duplicateEmail⟩, s1)) ∧
    ((∃ r ∈ s.rows, r.email = u.email) →
      addUser s u = (Except.error ⟨409, ErrKind.duplicateEmail⟩, s)) ∧
    ((∀ r ∈ s.rows, r.email ≠ u.email) →
      ∀ e, (addUser s u).1 = Except.error e → e.kind ≠ ErrKind.duplicateEmail) := by
  refine ⟨?_, addUser_of_present, ?_⟩
  · intro row s1 hok v hv
    obtain ⟨hrow, hs1⟩ := addUser_ok_elim hok
    refine addUser_of_present ⟨row, ?_, ?_⟩
    · rw [hs1]
      exact List.mem_append_right _ (List.mem_singleton.2 rfl)
    · rw [hrow, hv]
  · intro hfresh e he
    unfold addUser at he
    rw [if_neg (by rw [email_fresh_any hfresh]; exact Bool.false_ne_true)] at he
    cases he

/-- C4 (amended): in the database-backed variant every successful create
assigns an id strictly greater than every id already present, for every
starting state, including databases loaded from a pre-existing file.  In
the flat-file variant the assigned id is `len(users) + 1`, so the property
holds exactly when every stored id is at most the number of stored users
(in particular for every state built by creates from the empty store); it
can fail for a state loaded from a file with larger ids. -/
theorem create_ids_strictly_increase :
    (∀ (s : DBState) (u : UserCreate) (row : DBUser) (s1 : DBState),
      addUser s u = (Except.ok row, s1) → ∀ r ∈ s.rows, r.id < row.id) ∧
    (∀ (users : List FlatUser) (name email : Option (List Char))
        (u : FlatUser),
      (handleAddUser users name email).created = some u →
      (∀ r ∈ users, r.id ≤ (users.length : Int)) →
      ∀ r ∈ users, r.id < u.id) := by
  constructor
  · intro s u row s1 hok r hr
    obtain ⟨hrow, -⟩ := addUser_ok_elim hok
    rw [hrow]
    exact Nat.lt_succ_of_le
      (Nat.le_trans (le_maxId_of_mem hr) (Nat.le_max_right _ _))
  · intro users name email u hu hbound r hr
    obtain ⟨-, hid, -⟩ := handleAddUser_created hu
    rw [hid]
    exact Int.lt_add_one_iff.2 (hbound r hr)

/-- C4 counterexample: in the flat-file variant, starting from the state
loaded from the file contents `"5,a,b\n"` (one user with id 5), a create
with a fresh email is assigned id 2, which is not greater than the
present id 5. -/
theorem create_ids_flat_cex :
    loadUsers ("5,a,b\n".toList) = [⟨5, ['a'], ['b']⟩] ∧
    (handleAddUser (loadUsers ("5,a,b\n".toList))
        (some ['x']) (some ['y'])).created = some ⟨2, ['x'], ['y']⟩ ∧
    ¬ ((5 : Int) < 2) := by
  refine ⟨by decide, by decide, by decide⟩

/-- C8: every successful flat-file add assigns the new user the id
`len(users) + 1`; consequently from a loaded state whose single user has
id 2 the created user also receives id 2 and the stored ids are no longer
pairwise distinct. -/
theorem flat_add_id_count_plus_one :
    (∀ (users : List FlatUser) (name email : Option (List Char))
        (u : FlatUser),
      (handleAddUser users name email).created = some u →
      u.id = (users.length : Int) + 1) ∧
    ((handleAddUser [⟨2, ['a'], ['b']⟩] (some ['x']) (some ['y'])).users.map
        (fun r => r.id) = [2, 2]) ∧
    ¬ (((handleAddUser [⟨2, ['a'], ['b']⟩] (some ['x']) (some ['y'])).users.map
        (fun r => r.id)).Nodup) := by
  refine ⟨?_, by decide, by decide⟩
  intro users name email u hu
  obtain ⟨-, hid, -⟩ := handleAddUser_created hu
  rw [hid]

theorem loadLine_eq_wellFormed (line : List Char) :
    loadLine line
      = if wellFormedLine line then some (lineUser line) else none := by
  by_cases hemp : (pyStrip line).isEmpty = true
  · simp [loadLine, wellFormedLine, hemp]
  · cases hsp : splitOnChar ',' (pyStrip line) with
    | nil => simp [loadLine, wellFormedLine, lineUser, hemp, hsp]
    | cons p0 rest =>
      cases rest with
      | nil => simp [loadLine, wellFormedLine, lineUser, hemp, hsp]
      | cons p1 rest2 =>
        cases rest2 with
        | nil => simp [loadLine, wellFormedLine, lineUser, hemp, hsp]
        | cons p2 rest3 =>
          cases rest3 with
          | nil =>
            cases hpi : pyInt p0 with
            | none =>
              simp [loadLine, wellFormedLine, lineUser, hemp, hsp, hpi]
            | some i =>
              simp [loadLine, wellFormedLine, lineUser, hemp, hsp, hpi]
          | cons q qs =>
            simp [loadLine, wellFormedLine, lineUser, hemp, hsp]

theorem filterMap_eq_filter_map (lines : List (List Char)) :
    lines.filterMap loadLine
      = (lines.filter wellFormedLine).map lineUser := by
  induction lines with
  | nil => rfl
  | cons l t ih =>
    by_cases h : wellFormedLine l = true
    · simp [List.filterMap_cons, List.filter_cons,
        loadLine_eq_wellFormed l, h, ih]
    · simp [List.filterMap_cons, List.filter_cons,
        loadLine_eq_wellFormed l, h, ih]

/-- C9 (amended): saving then loading restores exactly the same list for
every list of users whose names and emails contain no comma and no
newline, provided additionally that no email ends in a whitespace
character (`strip()` removes trailing whitespace on load); the round-trip
fails for fields containing a comma. -/
theorem save_load_roundtrip :
    (∀ us : List FlatUser, (∀ u ∈ us, cleanUser u) →
      loadUsers (saveUsersContent us) = us) ∧
    loadUsers (saveUsersContent [⟨1, ['a', ',', 'b'], ['e']⟩])
      ≠ [⟨1, ['a', ',', 'b'], ['e']⟩] :=
  ⟨load_save_clean, by decide⟩

/-- C9 counterexample: the user `⟨1, "n", "a "⟩` has no comma and no
newline in any field, yet saving and loading drops the trailing space of
its email, so the round-trip is not the identity. -/
theorem save_load_roundtrip_cex :
    (∀ c ∈ (['n'] : List Char), c ≠ ',' ∧ c ≠ '\n') ∧
    (∀ c ∈ (['a', ' '] : List Char), c ≠ ',' ∧ c ≠ '\n') ∧
    loadUsers (saveUsersContent [⟨1, ['n'], ['a', ' ']⟩])
      ≠ [⟨1, ['n'], ['a', ' ']⟩] := by
  refine ⟨by decide, by decide, by decide⟩

/-- C10: loading never fails on malformed content: a line that strips to
empty, does not split into exactly three comma-separated parts, or whose
first part does not parse as an int contributes nothing, and the
well-formed lines are loaded in file order. -/
theorem loadUsers_skips_malformed (content : List Char) :
    loadUsers content
      = ((splitOnChar '\n' content).filter wellFormedLine).map lineUser ∧
    (∀ line ∈ splitOnChar '\n' content,
      wellFormedLine line = false → loadLine line = none) ∧
    (∀ line ∈ splitOnChar '\n' content,
      wellFormedLine line = true → loadLine line = some (lineUser line)) := by
  refine ⟨filterMap_eq_filter_map _, ?_, ?_⟩
  · intro line _ h
    rw [loadLine_eq_wellFormed line, if_neg (by simp [h])]
  · intro line _ h
    rw [loadLine_eq_wellFormed line, if_pos h]

/-- C3: with `user_id` supplied, the combined query returns exactly the
result of `getById` wrapped in a one-element sequence (the 404 failure
included), independent of the values of skip and limit; with `user_id`
absent it returns exactly the result of the list operation. -/
theorem getOrList_refines_getById (s : DBState) (uid : Nat)
    (skip lim skip' lim' : Nat) :
    getOrList s (some uid) skip lim
      = (getById s uid).map (fun u => [u]) ∧
    getOrList s (some uid) skip lim = getOrList s (some uid) skip' lim' ∧
    getOrList s none skip lim = Except.ok (listUsers s skip lim) := by
  refine ⟨?_, rfl, rfl⟩
  simp only [getOrList, getById]
  cases s.rows.find? (fun r => r.id == uid) <;> rfl

/-- C6: `getById` returns a stored user whose id equals the requested one
when such a user exists — the unique such user when stored ids are
pairwise distinct — and fails with a 404 not-found error exactly when no
stored user has that id (hence on every never-issued id). -/
theorem getById_matches_or_404 (s : DBState) (uid : Nat) :
    (getById s uid = Except.error ⟨404, ErrKind.notFound⟩ ↔
      ∀ r ∈ s.rows, r.id ≠ uid) ∧
    (∀ r, getById s uid = Except.ok r → r ∈ s.rows ∧ r.id = uid) ∧
    (∀ u, u ∈ s.rows → u.id = uid →
      (s.rows.map (fun r => r.id)).Nodup → getById s uid = Except.ok u) := by
  unfold getById
  cases hf : s.rows.find? (fun r => r.id == uid) with
  | none =>
    have hnone := List.find?_eq_none.1 hf
    refine ⟨⟨fun _ r hr => ?_, fun _ => rfl⟩, ?_, ?_⟩
    · simpa [beq_iff_eq] using hnone r hr
    · intro r h; cases h
    · intro u hu hid _
      exact absurd (hnone u hu) (by simp [beq_iff_eq, hid])
  | some r =>
    have hmem : r ∈ s.rows := List.mem_of_find?_eq_some hf
    have hp := List.find?_some hf
    have hid : r.id = uid := by simpa [beq_iff_eq] using hp
    refine ⟨⟨fun h => ?_, fun h => ?_⟩, ?_, ?_⟩
    · cases h
    · exact absurd hid (h r hmem)
    · intro r' h
      injection h with h
      subst h
      exact ⟨hmem, hid⟩
    · intro u hu huid hnd
      rw [List.inj_on_of_nodup_map hnd hmem hu (by rw [hid, huid])]

/-- C2: for `skip ≥ 0` and `limit` in `[1, 100]`, the list operation
returns the page obtained by sorting the rows by ascending id, dropping
the first `skip` and taking at most `limit`; the page is sorted by id and
has at most `limit` elements, the sorted sequence is a permutation of the
stored rows, the page is empty when no users remain past `skip`, and
`list(0, 10)` over a store of at most 10 users returns all of them in
ascending id order. -/
theorem listUsers_pagination (s : DBState) (skip lim : Nat)
    (h1 : 1 ≤ lim) (h2 : lim ≤ 100) :
    (listUsers s skip lim).length ≤ lim ∧
    (listUsers s skip lim).Sorted idLe ∧
    listUsers s skip lim
      = ((s.rows.insertionSort idLe).drop skip).take lim ∧
    (s.rows.insertionSort idLe).Perm s.rows ∧
    (s.rows.insertionSort idLe).Sorted idLe ∧
    (s.rows.length ≤ skip → listUsers s skip lim = []) ∧
    (s.rows.length ≤ 10 → (listUsers s 0 10).Perm s.rows) := by
  refine ⟨?_, ?_, rfl, List.perm_insertionSort idLe s.rows,
    List.sorted_insertionSort idLe s.rows, ?_, ?_⟩
  · simp only [listUsers, List.length_take]
    exact min_le_left _ _
  · exact List.Pairwise.sublist
      ((List.take_sublist _ _).trans (List.drop_sublist _ _))
      (List.sorted_insertionSort idLe s.rows)
  · intro hle
    rw [listUsers, List.drop_eq_nil_of_le
      (by rw [List.length_insertionSort]; exact hle)]
    simp
  · intro hlen
    have hsl : (s.rows.insertionSort idLe).length ≤ 10 := by
      rw [List.length_insertionSort]; exact hlen
    rw [listUsers, List.drop_zero, List.take_of_length_le hsl]
    exact List.perm_insertionSort idLe s.rows

/-- C2 witness: the pagination theorem applied to a concrete two-row store
with skip 0 and limit 10. -/
theorem listUsers_pagination_check :
    (listUsers ⟨[⟨2, "b", "b@x", 0⟩, ⟨1, "a", "a@x", 0⟩], 2⟩ 0 10).length
      ≤ 10 ∧
    listUsers ⟨[⟨2, "b", "b@x", 0⟩, ⟨1, "a", "a@x", 0⟩], 2⟩ 0 10
      = [⟨1, "a", "a@x", 0⟩, ⟨2, "b", "b@x", 0⟩] :=
  ⟨(listUsers_pagination ⟨[⟨2, "b", "b@x", 0⟩, ⟨1, "a", "a@x", 0⟩], 2⟩ 0 10
      (by decide) (by decide)).1,
    by decide⟩

/-- C5: a create request with a missing name, a missing or malformed
email, or a negative age fails validation — 422 in the database-backed
variant, 400 in the flat-file variant for a blank name or email — and the
store is left unchanged: no insert reaches storage. -/
theorem invalid_create_rejected (s : DBState) (r : RawCreate)
    (hbad : r.name = none ∨ r.email = none ∨
      (∃ e, r.email = some e ∧ validEmail e = false) ∨
      (∃ a, r.age = some a ∧ a < 0)) :
    postUsers s r = (Except.error ⟨422, ErrKind.invalidInput⟩, s) ∧
    (∀ u : UserCreate, validateCreate r ≠ Except.ok u) ∧
    (∀ (users : List FlatUser) (name email : Option (List Char)),
      (isBlank name || isBlank email) = true →
      handleAddUser users name email = ⟨400, none, users, false⟩) := by
  have hval : validateCreate r = Except.error ⟨422, ErrKind.invalidInput⟩ := by
    rcases h1 : r.name with _ | n
    · simp [validateCreate, h1]
    · rcases h2 : r.email with _ | e
      · simp [validateCreate, h1, h2]
      · rcases hbad with h | h | ⟨e', he', hbadE⟩ | ⟨a, ha, hneg⟩
        · rw [h1] at h; cases h
        · rw [h2] at h; cases h
        · rw [h2] at he'
          injection he' with he'
          subst he'
          simp [validateCreate, h1, h2, hbadE]
        · by_cases hv : validEmail e = true
          · simp [validateCreate, h1, h2, hv, ha, hneg]
          · simp [validateCreate, h1, h2, hv]
  refine ⟨?_, ?_, ?_⟩
  · unfold postUsers
    rw [hval]
  · intro u h
    rw [hval] at h
    cases h
  · intro users name email hb
    unfold handleAddUser
    rw [if_pos hb]

/-- C5 witness: the rejection theorem applied to the concrete request
whose name is absent. -/
theorem invalid_create_rejected_check :
    postUsers ⟨[], 0⟩ ⟨none, some "a@b", none⟩
      = (Except.error ⟨422, ErrKind.invalidInput⟩, ⟨[], 0⟩) :=
  (invalid_create_rejected ⟨[], 0⟩ ⟨none, some "a@b", none⟩ (Or.inl rfl)).1

/-- C7: the scoped storage connection acquired for a request is released
on every exit path of the handler: for every handler body — success,
validation failure, or storage error alike — the number of open
connections after the request equals the number before; in particular for
the create endpoint and the query endpoint. -/
theorem connection_released_every_path (st : ServerState) :
    (∀ (A : Type) (body : DBState → Except ApiError A × DBState),
      (withConnection st body).2.openConns = st.openConns) ∧
    (∀ r : RawCreate,
      (withConnection st (fun db => postUsers db r)).2.openConns
        = st.openConns) ∧
    (∀ (uid : Option Nat) (skip lim : Nat),
      (withConnection st
        (fun db => (getOrList db uid skip lim, db))).2.openConns
        = st.openConns) :=
  ⟨fun _ _ => rfl, fun _ => rfl, fun _ _ _ => rfl⟩
